import Mathlib

/-!
A shallow embedding of the `extsort` external sorter (`src/sorter.rs`) and proofs
about it.

Modelling conventions:
* Items are drawn from an arbitrary linearly ordered type `α`.
* A segment file is modelled by the list of items written to it, in write order;
  the caller-supplied `encode`/`decode` pair is assumed to round-trip (the
  `Sortable` contract), so decoding a reader is `head?`/`tail` on the remaining
  list and *end-of-stream* is `none`.  A decode failure on a truncated file is
  modelled by the reader list simply ending early.
* `buffer.sort()` (a stable sort) is modelled by a stable sort on lists.
* The consumption loop of `ExternalSorter::sort` is a left fold of its body over
  the input sequence.
-/

set_option linter.unusedSectionVars false

namespace Extsort

variable {α : Type} [LinearOrder α]

/-- The stable in-place sort `buffer.sort()` of the source, on our list model. -/
def sortList (l : List α) : List α := List.insertionSort (· ≤ ·) l

/-- `ExternalSorter::sort_and_write_segment`: sort the buffer and append its
contents as a fresh segment file at index `segments.len()`. -/
def sortAndWriteSegment (segments : List (List α)) (buffer : List α) :
    List (List α) :=
  segments ++ [sortList buffer]

/-- One iteration of the consumption loop in `ExternalSorter::sort`: push the
next item onto the buffer; if the buffer size now exceeds `maxSize`, sort and
spill it as a new segment and clear it. -/
def sortStep (maxSize : Nat) (st : List (List α) × List α) (x : α) :
    List (List α) × List α :=
  let buffer := st.2 ++ [x]
  if buffer.length > maxSize then (sortAndWriteSegment st.1 buffer, [])
  else (st.1, buffer)

/-- The whole consumption loop of `ExternalSorter::sort`, from empty `segments`
and empty `buffer`, returning their final values. -/
def runGen (maxSize : Nat) (input : List α) : List (List α) × List α :=
  input.foldl (sortStep maxSize) ([], [])

/-- The `SortedIterator` state: the optional pass-through queue, the remaining
(undecoded) contents of each segment reader, and the one-item lookahead per
segment (`next_values[i]` is the next undelivered item of run `i`, or `none`
when that run is exhausted). -/
structure SortedIterator (α : Type) where
  pass_through_queue : Option (List α)
  segments : List (List α)
  next_values : List (Option α)
deriving DecidableEq, Repr

/-- `SortedIterator::new`: seek every segment to offset 0 and decode one item
per segment into `next_values`; each reader is then positioned just past that
first item. -/
def SortedIterator.new (pass_through_queue : Option (List α))
    (segments : List (List α)) : SortedIterator α :=
  { pass_through_queue := pass_through_queue
    segments := segments.map List.tail
    next_values := segments.map List.head? }

/-- `ExternalSorter::sort`: consume the input through the buffering loop, then
either flush the residue (when both the buffer and the segment list are
non-empty) and merge, or sort the buffer and hand it over as the pass-through
queue. -/
def sort (maxSize : Nat) (input : List α) : SortedIterator α :=
  let p := runGen maxSize input
  if !p.2.isEmpty && !p.1.isEmpty then
    SortedIterator.new none (sortAndWriteSegment p.1 p.2)
  else
    SortedIterator.new (some (sortList p.2)) p.1

/-- The linear minimum scan inside `SortedIterator::next`: walk the lookahead
slots from index `idx` upward, keeping the smallest value seen so far together
with its index; a slot replaces the accumulator only when strictly smaller, so
the lowest index wins ties. -/
def smallestScan : List (Option α) → Nat → Option (α × Nat) → Option (α × Nat)
  | [], _, acc => acc
  | none :: rest, idx, acc => smallestScan rest (idx + 1) acc
  | some v :: rest, idx, acc =>
    match acc with
    | none => smallestScan rest (idx + 1) (some (v, idx))
    | some (s, si) =>
      if v < s then smallestScan rest (idx + 1) (some (v, idx))
      else smallestScan rest (idx + 1) (some (s, si))

/-- `SortedIterator::next`: pop the front of the pass-through queue when it is
present; otherwise take the smallest lookahead value and refill that slot by
decoding one item from the same segment's reader. -/
def SortedIterator.next (it : SortedIterator α) : Option α × SortedIterator α :=
  match it.pass_through_queue with
  | some q =>
    match q with
    | [] => (none, it)
    | x :: rest => (some x, { it with pass_through_queue := some rest })
  | none =>
    match smallestScan it.next_values 0 none with
    | none => (none, it)
    | some (v, idx) =>
      let seg := it.segments.getD idx []
      (some v,
        { it with
          segments := it.segments.set idx seg.tail
          next_values := it.next_values.set idx seg.head? })

/-- The number of items the iterator can still deliver: the queue length in
pass-through mode; the number of live lookahead slots plus the undecoded reader
contents in merge mode. -/
def SortedIterator.size (it : SortedIterator α) : Nat :=
  match it.pass_through_queue with
  | some q => q.length
  | none =>
    (it.next_values.filterMap id).length + (it.segments.map List.length).sum

/-- Iterate `next` with explicit fuel, collecting the delivered items. -/
def drainFuel : Nat → SortedIterator α → List α
  | 0, _ => []
  | fuel + 1, it =>
    match it.next with
    | (none, _) => []
    | (some v, it') => v :: drainFuel fuel it'

/-- Everything the iterator delivers before reporting end-of-stream: `size`
turns out to be exactly the number of successful `next` calls, so it is enough
fuel. -/
def SortedIterator.drain (it : SortedIterator α) : List α :=
  drainFuel it.size it

/-- The multiset of items still reachable by the iterator: the queue in
pass-through mode, the lookahead heads plus the remaining reader contents in
merge mode. -/
def SortedIterator.live (it : SortedIterator α) : Multiset α :=
  match it.pass_through_queue with
  | some q => ↑q
  | none => ↑(it.next_values.filterMap id) + ↑it.segments.flatten

/-- Structural well-formedness maintained by the iterator: the reader list and
the lookahead list are parallel arrays, and an exhausted lookahead slot has an
empty reader behind it. -/
def SortedIterator.WF (it : SortedIterator α) : Prop :=
  it.segments.length = it.next_values.length ∧
  ∀ i : Nat, it.next_values[i]? = some none → it.segments[i]? = some ([] : List α)

/-- The runs of a merge iterator: for each segment, its lookahead head (when
live) followed by the remaining reader contents. -/
def SortedIterator.runs (it : SortedIterator α) : List (List α) :=
  List.zipWith (fun h s => h.toList ++ s) it.next_values it.segments

/-- Order invariant: every run is sorted and the pass-through queue (when
present) is sorted. -/
def SortedIterator.Inv (it : SortedIterator α) : Prop :=
  (∀ q, it.pass_through_queue = some q → List.Sorted (· ≤ ·) q) ∧
  ∀ r ∈ it.runs, List.Sorted (· ≤ ·) r

/-- Left-biased minimum on optional (value, index) pairs: the right operand wins
only when strictly smaller, matching the scan's replacement condition. -/
def combineMin : Option (α × Nat) → Option (α × Nat) → Option (α × Nat)
  | none, b => b
  | some a, none => some a
  | some (s, si), some (v, vi) => if v < s then some (v, vi) else some (s, si)

/-- The iterator state after `k` calls to `next` (results discarded). -/
def stepN : Nat → SortedIterator α → SortedIterator α
  | 0, it => it
  | k + 1, it => stepN k (it.next).2

/-! ### Basic facts about the stable sort -/

theorem sortList_sorted (l : List α) : List.Sorted (· ≤ ·) (sortList l) :=
  List.sorted_insertionSort _ l

theorem sortList_perm (l : List α) : (sortList l).Perm l :=
  List.perm_insertionSort _ l

theorem sortList_length (l : List α) : (sortList l).length = l.length :=
  (sortList_perm l).length_eq

theorem sortList_coe (l : List α) : (↑(sortList l) : Multiset α) = ↑l :=
  Multiset.coe_eq_coe.mpr (sortList_perm l)

/-! ### List decomposition helpers -/

theorem eq_take_cons_drop {β : Type} (l : List β) (i : Nat) (h : i < l.length) :
    l = l.take i ++ l[i] :: l.drop (i + 1) := by
  conv_lhs => rw [← List.take_append_drop i l]
  rw [List.getElem_cons_drop]

theorem set_decomp {β : Type} (l : List β) (i : Nat) (x : β) (h : i < l.length) :
    l.set i x = l.take i ++ x :: l.drop (i + 1) := by
  rw [List.set_eq_take_append_cons_drop, if_pos h]

theorem head?_toList_append_tail {β : Type} (l : List β) :
    l.head?.toList ++ l.tail = l := by
  cases l <;> rfl

/-! ### The minimum scan -/

theorem combineMin_none_left (b : Option (α × Nat)) : combineMin none b = b := rfl

theorem combineMin_none_right (a : Option (α × Nat)) : combineMin a none = a := by
  cases a <;> rfl

theorem combineMin_some_left (s : α) (si : Nat) (b : Option (α × Nat)) :
    combineMin (some (s, si)) b ≠ none := by
  rcases b with _ | ⟨v, vi⟩
  · simp [combineMin]
  · simp only [combineMin]
    split_ifs <;> simp

theorem combineMin_assoc (a b c : Option (α × Nat)) :
    combineMin (combineMin a b) c = combineMin a (combineMin b c) := by
  rcases a with _ | ⟨s, si⟩
  · rfl
  · rcases b with _ | ⟨v, vi⟩
    · rw [show combineMin (some (s, si)) none = some (s, si) from rfl]
      rfl
    · rcases c with _ | ⟨w, wi⟩
      · rw [combineMin_none_right, combineMin_none_right]
      · show combineMin (if v < s then some (v, vi) else some (s, si)) (some (w, wi)) =
          combineMin (some (s, si)) (if w < v then some (w, wi) else some (v, vi))
        by_cases h1 : v < s
        · rw [if_pos h1]
          by_cases h2 : w < v
          · rw [if_pos h2]
            show (if w < v then some (w, wi) else some (v, vi)) = _
            rw [if_pos h2]
            show _ = (if w < s then some (w, wi) else some (s, si))
            rw [if_pos (h2.trans h1)]
          · rw [if_neg h2]
            show (if w < v then some (w, wi) else some (v, vi)) = _
            rw [if_neg h2]
            show _ = (if v < s then some (v, vi) else some (s, si))
            rw [if_pos h1]
        · rw [if_neg h1]
          by_cases h2 : w < v
          · show (if w < s then some (w, wi) else some (s, si)) = _
            rw [if_pos h2]
            show _ = (if w < s then some (w, wi) else some (s, si))
            rfl
          · show (if w < s then some (w, wi) else some (s, si)) = _
            rw [if_neg h2]
            show _ = (if v < s then some (v, vi) else some (s, si))
            rw [if_neg h1, if_neg (fun hws => h2 (lt_of_lt_of_le hws (le_of_not_lt h1)))]

theorem smallestScan_acc (l : List (Option α)) :
    ∀ (n : Nat) (acc : Option (α × Nat)),
      smallestScan l n acc = combineMin acc (smallestScan l n none) := by
  induction l with
  | nil =>
    intro n acc
    show acc = combineMin acc (smallestScan [] n none)
    rw [show smallestScan ([] : List (Option α)) n none = none from rfl,
      combineMin_none_right]
  | cons y rest ih =>
    intro n acc
    rcases y with _ | v
    · show smallestScan rest (n + 1) acc = combineMin acc (smallestScan rest (n + 1) none)
      exact ih (n + 1) acc
    · have hstep : ∀ a : Option (α × Nat),
          smallestScan (some v :: rest) n a =
            smallestScan rest (n + 1) (combineMin a (some (v, n))) := by
        intro a
        rcases a with _ | ⟨s, si⟩
        · rfl
        · show (if v < s then smallestScan rest (n + 1) (some (v, n))
              else smallestScan rest (n + 1) (some (s, si))) = _
          show _ = smallestScan rest (n + 1) (if v < s then some (v, n) else some (s, si))
          split_ifs <;> rfl
      rw [hstep acc, hstep none, combineMin_none_left,
        ih (n + 1) (combineMin acc (some (v, n))), ih (n + 1) (some (v, n)),
        combineMin_assoc]

theorem smallestScan_eq_none_iff (l : List (Option α)) :
    ∀ n : Nat, smallestScan l n none = none ↔ ∀ x ∈ l, x = none := by
  induction l with
  | nil => intro n; simp [smallestScan]
  | cons y rest ih =>
    intro n
    rcases y with _ | v
    · show smallestScan rest (n + 1) none = none ↔ _
      rw [ih (n + 1)]
      simp
    · show smallestScan rest (n + 1) (some (v, n)) = none ↔ _
      rw [smallestScan_acc]
      constructor
      · intro h
        exact absurd h (combineMin_some_left v n _)
      · intro h
        exact absurd (h (some v) (List.mem_cons_self _ _)) (by simp)

/-- Specification of the selection step: a successful scan returns the value of
the first minimum among the live lookahead slots together with its index; every
live slot is `≥` the result and every earlier live slot is strictly greater. -/
theorem smallestScan_some_spec (l : List (Option α)) :
    ∀ (n : Nat) (v : α) (i : Nat), smallestScan l n none = some (v, i) →
      ∃ j : Nat, i = n + j ∧ l[j]? = some (some v) ∧
        (∀ (k : Nat) (w : α), l[k]? = some (some w) → v ≤ w) ∧
        (∀ (k : Nat) (w : α), k < j → l[k]? = some (some w) → v < w) := by
  induction l with
  | nil => intro n v i h; exact absurd h (by simp [smallestScan])
  | cons y rest ih =>
    intro n v i h
    rcases y with _ | u
    · have h' : smallestScan rest (n + 1) none = some (v, i) := h
      obtain ⟨j, hij, hget, hmin, hstrict⟩ := ih (n + 1) v i h'
      refine ⟨j + 1, by omega, by simpa using hget, ?_, ?_⟩
      · intro k w hk
        cases k with
        | zero => simp at hk
        | succ k => exact hmin k w (by simpa using hk)
      · intro k w hkj hk
        cases k with
        | zero => simp at hk
        | succ k => exact hstrict k w (by omega) (by simpa using hk)
    · have h' : smallestScan rest (n + 1) (some (u, n)) = some (v, i) := h
      rw [smallestScan_acc] at h'
      rcases hS : smallestScan rest (n + 1) none with _ | ⟨w, i'⟩
      · rw [hS] at h'
        rw [combineMin_none_right] at h'
        obtain ⟨huv, hni⟩ : u = v ∧ n = i := by simpa using h'
        refine ⟨0, by omega, by simp [huv], ?_, ?_⟩
        · intro k w hk
          cases k with
          | zero =>
            have huw : u = w := by simpa using hk
            exact le_of_eq (huv ▸ huw)
          | succ k =>
            have hmem : some w ∈ rest := List.mem_iff_getElem?.mpr ⟨k, by simpa using hk⟩
            have := (smallestScan_eq_none_iff rest (n + 1)).mp hS _ hmem
            simp at this
        · intro k w hkj hk
          omega
      · rw [hS] at h'
        obtain ⟨j', hij', hget', hmin', hstrict'⟩ := ih (n + 1) w i' hS
        by_cases hlt : w < u
        · have h'' : some (w, i') = some (v, i) := by
            simpa [combineMin, if_pos hlt] using h'
          obtain ⟨hwv, hii⟩ : w = v ∧ i' = i := by simpa using h''
          refine ⟨j' + 1, by omega, by simpa [hwv] using hget', ?_, ?_⟩
          · intro k z hk
            cases k with
            | zero =>
              have huz : u = z := by simpa using hk
              exact le_of_lt (hwv ▸ huz ▸ hlt)
            | succ k => exact hwv ▸ hmin' k z (by simpa using hk)
          · intro k z hkj hk
            cases k with
            | zero =>
              have huz : u = z := by simpa using hk
              exact hwv ▸ huz ▸ hlt
            | succ k => exact hwv ▸ hstrict' k z (by omega) (by simpa using hk)
        · have h'' : some (u, n) = some (v, i) := by
            simpa [combineMin, if_neg hlt] using h'
          obtain ⟨huv, hni⟩ : u = v ∧ n = i := by simpa using h''
          refine ⟨0, by omega, by simp [huv], ?_, ?_⟩
          · intro k z hk
            cases k with
            | zero =>
              have huz : u = z := by simpa using hk
              exact le_of_eq (huv ▸ huz)
            | succ k =>
              have hz := hmin' k z (by simpa using hk)
              exact (huv ▸ le_of_not_lt hlt : v ≤ w).trans hz
          · intro k z hkj hk
            omega

/-! ### Multiset bookkeeping for `set` updates -/

theorem filterMap_id_cons (a : Option α) (l : List (Option α)) :
    (a :: l).filterMap id = a.toList ++ l.filterMap id := by
  cases a <;> simp

theorem coe_filterMap_set (nv : List (Option α)) (i : Nat) (x : Option α)
    (hi : i < nv.length) :
    (↑((nv.set i x).filterMap id) : Multiset α) + ↑(nv[i].toList) =
      ↑(nv.filterMap id) + ↑x.toList := by
  rw [set_decomp nv i x hi]
  conv_rhs => rw [eq_take_cons_drop nv i hi]
  rw [List.filterMap_append, List.filterMap_append, filterMap_id_cons, filterMap_id_cons]
  simp only [← Multiset.coe_add]
  abel

theorem coe_flatten_set (segs : List (List α)) (i : Nat) (t : List α)
    (hi : i < segs.length) :
    (↑((segs.set i t).flatten) : Multiset α) + ↑(segs[i]) =
      ↑segs.flatten + ↑t := by
  rw [set_decomp segs i t hi]
  conv_rhs => rw [eq_take_cons_drop segs i hi]
  rw [List.flatten_append, List.flatten_append, List.flatten_cons, List.flatten_cons]
  simp only [← Multiset.coe_add]
  abel

/-! ### Reduction lemmas for `next` -/

theorem next_pass_nil (it : SortedIterator α) (h : it.pass_through_queue = some []) :
    it.next = (none, it) := by
  unfold SortedIterator.next
  rw [h]

theorem next_pass_cons (it : SortedIterator α) (x : α) (rest : List α)
    (h : it.pass_through_queue = some (x :: rest)) :
    it.next = (some x, { it with pass_through_queue := some rest }) := by
  unfold SortedIterator.next
  rw [h]

theorem next_merge_none (it : SortedIterator α) (hq : it.pass_through_queue = none)
    (hscan : smallestScan it.next_values 0 none = none) :
    it.next = (none, it) := by
  unfold SortedIterator.next
  rw [hq, hscan]

theorem next_merge_some (it : SortedIterator α) (hq : it.pass_through_queue = none)
    (v : α) (i : Nat) (hscan : smallestScan it.next_values 0 none = some (v, i)) :
    it.next = (some v,
      { it with
        segments := it.segments.set i (it.segments.getD i []).tail
        next_values := it.next_values.set i (it.segments.getD i []).head? }) := by
  unfold SortedIterator.next
  rw [hq, hscan]

/-! ### Step lemmas for the iterator -/

/-- A successful `next` preserves well-formedness and removes exactly its result
from the reachable items. -/
theorem step_some (it : SortedIterator α) (hWF : it.WF) (v : α)
    (it' : SortedIterator α) (h : it.next = (some v, it')) :
    it'.WF ∧ it.live = v ::ₘ it'.live := by
  obtain ⟨hlen, hslot⟩ := hWF
  rcases hq : it.pass_through_queue with _ | q
  · rcases hscan : smallestScan it.next_values 0 none with _ | ⟨v₀, i⟩
    · rw [next_merge_none it hq hscan] at h
      exact absurd (congrArg Prod.fst h) (by simp)
    · rw [next_merge_some it hq v₀ i hscan] at h
      have hv : v₀ = v := by simpa using congrArg Prod.fst h
      subst hv
      have hit : it' = { it with
          segments := it.segments.set i (it.segments.getD i []).tail
          next_values := it.next_values.set i (it.segments.getD i []).head? } :=
        (congrArg Prod.snd h).symm
      subst hit
      obtain ⟨j, hj0, hget, hmin, hstrict⟩ :=
        smallestScan_some_spec it.next_values 0 v₀ i hscan
      obtain rfl : i = j := by omega
      obtain ⟨hilt, hnvi⟩ := List.getElem?_eq_some.mp hget
      have hislt : i < it.segments.length := by rw [hlen]; exact hilt
      have hseg : it.segments.getD i [] = it.segments[i] :=
        List.getD_eq_getElem _ _ hislt
      simp only [hseg]
      constructor
      · constructor
        · simp [hlen]
        · intro k hk
          by_cases hki : k = i
          · rw [hki] at hk ⊢
            rw [List.getElem?_set_self hilt] at hk
            have hhd : (it.segments[i]).head? = none := by simpa using hk
            have hnil : it.segments[i] = [] := List.head?_eq_none_iff.mp hhd
            rw [List.getElem?_set_self hislt, hnil]
            rfl
          · rw [List.getElem?_set_ne (fun hh => hki hh.symm)] at hk
            rw [List.getElem?_set_ne (fun hh => hki hh.symm)]
            exact hslot k hk
      · have hT := coe_filterMap_set it.next_values i (it.segments[i]).head? hilt
        have hB := coe_flatten_set it.segments i (it.segments[i]).tail hislt
        have h1 : (↑((it.next_values.set i (it.segments[i]).head?).filterMap id) :
              Multiset α) + {v₀} =
            ↑(it.next_values.filterMap id) + ↑((it.segments[i]).head?.toList) := by
          simpa [hnvi] using hT
        have hs : (↑(it.segments[i]) : Multiset α) =
            ↑((it.segments[i]).head?.toList) + ↑((it.segments[i]).tail) := by
          conv_lhs => rw [← head?_toList_append_tail (it.segments[i])]
          rw [← Multiset.coe_add]
        have h2 : (↑((it.segments.set i (it.segments[i]).tail).flatten) : Multiset α) +
            ↑((it.segments[i]).head?.toList) = ↑it.segments.flatten := by
          rw [hs] at hB
          have hB' : ((↑((it.segments.set i (it.segments[i]).tail).flatten) : Multiset α) +
              ↑((it.segments[i]).head?.toList)) + ↑((it.segments[i]).tail) =
              ↑it.segments.flatten + ↑((it.segments[i]).tail) := by
            rw [add_assoc]
            exact hB
          exact add_right_cancel hB'
        simp only [SortedIterator.live, hq]
        rw [← Multiset.singleton_add]
        calc (↑(it.next_values.filterMap id) : Multiset α) + ↑it.segments.flatten
            = ↑(it.next_values.filterMap id) +
              (↑((it.segments.set i (it.segments[i]).tail).flatten) +
                ↑((it.segments[i]).head?.toList)) := by rw [h2]
          _ = (↑(it.next_values.filterMap id) + ↑((it.segments[i]).head?.toList)) +
              ↑((it.segments.set i (it.segments[i]).tail).flatten) := by abel
          _ = (↑((it.next_values.set i (it.segments[i]).head?).filterMap id) + {v₀}) +
              ↑((it.segments.set i (it.segments[i]).tail).flatten) := by rw [← h1]
          _ = {v₀} + (↑((it.next_values.set i (it.segments[i]).head?).filterMap id) +
              ↑((it.segments.set i (it.segments[i]).tail).flatten)) := by abel
  · cases q with
    | nil =>
      rw [next_pass_nil it hq] at h
      exact absurd (congrArg Prod.fst h) (by simp)
    | cons x rest =>
      rw [next_pass_cons it x rest hq] at h
      have hv : x = v := by simpa using congrArg Prod.fst h
      subst hv
      have hit : it' = { it with pass_through_queue := some rest } :=
        (congrArg Prod.snd h).symm
      subst hit
      refine ⟨⟨hlen, hslot⟩, ?_⟩
      simp [SortedIterator.live, hq]

/-- When `next` reports end-of-stream, nothing was reachable. -/
theorem step_none (it : SortedIterator α) (hWF : it.WF)
    (it₂ : SortedIterator α) (h : it.next = (none, it₂)) : it.live = 0 := by
  obtain ⟨hlen, hslot⟩ := hWF
  rcases hq : it.pass_through_queue with _ | q
  · rcases hscan : smallestScan it.next_values 0 none with _ | ⟨v₀, i⟩
    · have hall := (smallestScan_eq_none_iff it.next_values 0).mp hscan
      have hfm : it.next_values.filterMap id = [] := by
        rw [List.filterMap_eq_nil_iff]
        intro a ha
        simpa using hall a ha
      have hsegs : ∀ s ∈ it.segments, s = ([] : List α) := by
        intro s hs
        obtain ⟨k, hk⟩ := List.mem_iff_getElem?.mp hs
        have hklt : k < it.segments.length := (List.getElem?_eq_some.mp hk).1
        have hknv : k < it.next_values.length := hlen ▸ hklt
        have hkn : it.next_values[k]? = some none := by
          rw [List.getElem?_eq_getElem hknv]
          exact congrArg some (hall _ (List.getElem_mem hknv))
        have := hslot k hkn
        rw [hk] at this
        exact Option.some.inj this
      have hflat : it.segments.flatten = [] := List.flatten_eq_nil_iff.mpr hsegs
      simp [SortedIterator.live, hq, hfm, hflat]
    · rw [next_merge_some it hq v₀ i hscan] at h
      exact absurd (congrArg Prod.fst h) (by simp)
  · cases q with
    | nil => simp [SortedIterator.live, hq]
    | cons x rest =>
      rw [next_pass_cons it x rest hq] at h
      exact absurd (congrArg Prod.fst h) (by simp)

/-- A successful `next` preserves the order invariant, and its result is a lower
bound on everything still reachable. -/
theorem step_inv (it : SortedIterator α) (hWF : it.WF) (hInv : it.Inv) (v : α)
    (it' : SortedIterator α) (h : it.next = (some v, it')) :
    it'.Inv ∧ ∀ w ∈ it'.live, v ≤ w := by
  obtain ⟨hlen, hslot⟩ := hWF
  obtain ⟨hqsort, hrsort⟩ := hInv
  rcases hq : it.pass_through_queue with _ | q
  · rcases hscan : smallestScan it.next_values 0 none with _ | ⟨v₀, i⟩
    · rw [next_merge_none it hq hscan] at h
      exact absurd (congrArg Prod.fst h) (by simp)
    · rw [next_merge_some it hq v₀ i hscan] at h
      have hv : v₀ = v := by simpa using congrArg Prod.fst h
      subst hv
      have hit : it' = { it with
          segments := it.segments.set i (it.segments.getD i []).tail
          next_values := it.next_values.set i (it.segments.getD i []).head? } :=
        (congrArg Prod.snd h).symm
      subst hit
      obtain ⟨j, hj0, hget, hmin, hstrict⟩ :=
        smallestScan_some_spec it.next_values 0 v₀ i hscan
      obtain rfl : i = j := by omega
      obtain ⟨hilt, hnvi⟩ := List.getElem?_eq_some.mp hget
      have hislt : i < it.segments.length := by rw [hlen]; exact hilt
      have hseg : it.segments.getD i [] = it.segments[i] :=
        List.getD_eq_getElem _ _ hislt
      simp only [hseg]
      have hrun_i : (some v₀).toList ++ it.segments[i] ∈ it.runs := by
        refine List.mem_iff_getElem?.mpr ⟨i, ?_⟩
        simp [SortedIterator.runs, List.getElem?_zipWith, hget,
          List.getElem?_eq_getElem hislt]
      have hsort_i : List.Sorted (· ≤ ·) (v₀ :: it.segments[i]) := by
        simpa using hrsort _ hrun_i
      constructor
      · constructor
        · intro q' hq'
          simp [hq] at hq'
        · intro r hr
          obtain ⟨k, hk⟩ := List.mem_iff_getElem?.mp hr
          rw [SortedIterator.runs, List.getElem?_zipWith] at hk
          by_cases hki : k = i
          · rw [hki] at hk
            rw [List.getElem?_set_self hilt, List.getElem?_set_self hislt] at hk
            have hr' : r = (it.segments[i]).head?.toList ++ (it.segments[i]).tail := by
              simpa using hk.symm
            rw [head?_toList_append_tail] at hr'
            subst hr'
            exact hsort_i.of_cons
          · rw [List.getElem?_set_ne (fun hh => hki hh.symm),
              List.getElem?_set_ne (fun hh => hki hh.symm)] at hk
            have hr' : r ∈ it.runs := by
              refine List.mem_iff_getElem?.mpr ⟨k, ?_⟩
              rw [SortedIterator.runs, List.getElem?_zipWith]
              exact hk
            exact hrsort r hr'
      · intro w hw
        simp only [SortedIterator.live, hq] at hw
        rw [Multiset.mem_add, Multiset.mem_coe, Multiset.mem_coe] at hw
        rcases hw with hw | hw
        · rw [List.mem_filterMap] at hw
          obtain ⟨a, ha, hid⟩ := hw
          have ha' : some w ∈ it.next_values.set i (it.segments[i]).head? := by
            have : a = some w := hid
            rwa [this] at ha
          obtain ⟨k, hk⟩ := List.mem_iff_getElem?.mp ha'
          by_cases hki : k = i
          · rw [hki] at hk
            rw [List.getElem?_set_self hilt] at hk
            have hhd : (it.segments[i]).head? = some w := by simpa using hk
            have hwmem : w ∈ it.segments[i] := by
              cases hsg : it.segments[i] with
              | nil => rw [hsg] at hhd; simp at hhd
              | cons b t =>
                rw [hsg] at hhd
                have : b = w := by simpa using hhd
                rw [← this]
                exact List.mem_cons_self _ _
            exact List.rel_of_sorted_cons hsort_i w hwmem
          · rw [List.getElem?_set_ne (fun hh => hki hh.symm)] at hk
            exact hmin k w hk
        · rw [List.mem_flatten] at hw
          obtain ⟨s, hs, hws⟩ := hw
          obtain ⟨k, hk⟩ := List.mem_iff_getElem?.mp hs
          by_cases hki : k = i
          · rw [hki] at hk
            rw [List.getElem?_set_self hislt] at hk
            have hst : (it.segments[i]).tail = s := by simpa using hk
            subst hst
            exact List.rel_of_sorted_cons hsort_i w (List.mem_of_mem_tail hws)
          · rw [List.getElem?_set_ne (fun hh => hki hh.symm)] at hk
            have hklt : k < it.segments.length := (List.getElem?_eq_some.mp hk).1
            have hknv : k < it.next_values.length := hlen ▸ hklt
            rcases hnk : it.next_values[k] with _ | u
            · have hkn : it.next_values[k]? = some none := by
                rw [List.getElem?_eq_getElem hknv, hnk]
              have := hslot k hkn
              rw [hk] at this
              have hse : s = ([] : List α) := Option.some.inj this
              rw [hse] at hws
              simp at hws
            · have hrun_k : (some u).toList ++ s ∈ it.runs := by
                refine List.mem_iff_getElem?.mpr ⟨k, ?_⟩
                rw [SortedIterator.runs, List.getElem?_zipWith,
                  List.getElem?_eq_getElem hknv, hnk, hk]
              have hsort_k : List.Sorted (· ≤ ·) (u :: s) := by
                simpa using hrsort _ hrun_k
              have h1 : v₀ ≤ u := hmin k u (by rw [List.getElem?_eq_getElem hknv, hnk])
              exact h1.trans (List.rel_of_sorted_cons hsort_k w hws)
  · cases q with
    | nil =>
      rw [next_pass_nil it hq] at h
      exact absurd (congrArg Prod.fst h) (by simp)
    | cons x rest =>
      rw [next_pass_cons it x rest hq] at h
      have hv : x = v := by simpa using congrArg Prod.fst h
      subst hv
      have hit : it' = { it with pass_through_queue := some rest } :=
        (congrArg Prod.snd h).symm
      subst hit
      have hqs := hqsort _ hq
      constructor
      · constructor
        · intro q' hq'
          have hqr : rest = q' := by simpa using hq'
          rw [← hqr]
          exact hqs.of_cons
        · intro r hr
          exact hrsort r hr
      · intro w hw
        simp only [SortedIterator.live, Multiset.mem_coe] at hw
        exact List.rel_of_sorted_cons hqs w hw

/-! ### Draining the iterator -/

theorem size_eq_card_live (it : SortedIterator α) :
    it.size = Multiset.card it.live := by
  rcases hq : it.pass_through_queue with _ | q <;>
    simp [SortedIterator.size, SortedIterator.live, hq, List.length_flatten]

/-- Master lemma: with enough fuel, draining a well-formed, order-invariant
iterator delivers exactly the reachable multiset, in sorted order. -/
theorem drainFuel_spec (fuel : Nat) :
    ∀ it : SortedIterator α, it.WF → it.Inv → it.size ≤ fuel →
      (↑(drainFuel fuel it) : Multiset α) = it.live ∧
        List.Sorted (· ≤ ·) (drainFuel fuel it) := by
  induction fuel with
  | zero =>
    intro it hWF hInv hle
    have hsz : it.size = 0 := Nat.le_zero.mp hle
    have hlive : it.live = 0 := by
      rw [← Multiset.card_eq_zero, ← size_eq_card_live]
      exact hsz
    simp [drainFuel, hlive]
  | succ fuel ih =>
    intro it hWF hInv hle
    rcases hnext : it.next with ⟨r, it'⟩
    rcases r with _ | v
    · have hlive := step_none it hWF it' hnext
      simp [drainFuel, hnext, hlive]
    · obtain ⟨hWF', hcons⟩ := step_some it hWF v it' hnext
      obtain ⟨hInv', hlb⟩ := step_inv it hWF hInv v it' hnext
      have hsz : it'.size ≤ fuel := by
        have h1 : Multiset.card it.live = Multiset.card it'.live + 1 := by
          rw [hcons, Multiset.card_cons]
        have h2 := size_eq_card_live it
        have h3 := size_eq_card_live it'
        omega
      obtain ⟨hml, hsort⟩ := ih it' hWF' hInv' hsz
      constructor
      · show (↑(drainFuel (fuel + 1) it) : Multiset α) = it.live
        simp only [drainFuel, hnext]
        rw [← Multiset.cons_coe, hml, hcons]
      · simp only [drainFuel, hnext]
        rw [List.sorted_cons]
        refine ⟨?_, hsort⟩
        intro b hb
        have hbl : b ∈ it'.live := by
          rw [← hml]
          exact Multiset.mem_coe.mpr hb
        exact hlb b hbl

theorem drain_spec (it : SortedIterator α) (hWF : it.WF) (hInv : it.Inv) :
    (↑it.drain : Multiset α) = it.live ∧ List.Sorted (· ≤ ·) it.drain :=
  drainFuel_spec it.size it hWF hInv le_rfl

/-! ### Freshly constructed iterators -/

theorem new_WF (ptq : Option (List α)) (segs : List (List α)) :
    (SortedIterator.new ptq segs).WF := by
  constructor
  · simp [SortedIterator.new]
  · intro i hk
    simp only [SortedIterator.new, List.getElem?_map] at hk ⊢
    rcases hsi : segs[i]? with _ | s
    · rw [hsi] at hk
      simp at hk
    · rw [hsi] at hk
      have hhd : s.head? = none := by simpa using hk
      have hs : s = [] := List.head?_eq_none_iff.mp hhd
      rw [hs]
      rfl

theorem new_runs (ptq : Option (List α)) (segs : List (List α)) :
    (SortedIterator.new ptq segs).runs = segs := by
  simp only [SortedIterator.runs, SortedIterator.new]
  induction segs with
  | nil => rfl
  | cons s rest ih => simp [ih, head?_toList_append_tail]

theorem new_Inv (ptq : Option (List α)) (segs : List (List α))
    (hq : ∀ q, ptq = some q → List.Sorted (· ≤ ·) q)
    (hs : ∀ s ∈ segs, List.Sorted (· ≤ ·) s) :
    (SortedIterator.new ptq segs).Inv := by
  constructor
  · intro q h
    exact hq q h
  · intro r hr
    rw [new_runs] at hr
    exact hs r hr

theorem new_live_pass (q : List α) (segs : List (List α)) :
    (SortedIterator.new (some q) segs).live = (↑q : Multiset α) := rfl

theorem new_live_merge (segs : List (List α)) :
    (SortedIterator.new none segs).live = (↑segs.flatten : Multiset α) := by
  simp only [SortedIterator.live, SortedIterator.new]
  induction segs with
  | nil => simp
  | cons s rest ih =>
    rw [List.map_cons, List.map_cons, filterMap_id_cons, List.flatten_cons,
      List.flatten_cons]
    have hs : (↑(s.head?.toList) : Multiset α) + ↑s.tail = ↑s := by
      rw [Multiset.coe_add, head?_toList_append_tail]
    calc (↑(s.head?.toList ++ (rest.map List.head?).filterMap id) : Multiset α) +
          ↑(s.tail ++ (rest.map List.tail).flatten)
        = (↑(s.head?.toList) + ↑s.tail) +
            (↑((rest.map List.head?).filterMap id) + ↑(rest.map List.tail).flatten) := by
          rw [← Multiset.coe_add, ← Multiset.coe_add]
          abel
      _ = ↑s + ↑rest.flatten := by rw [hs, ih]
      _ = ↑(s ++ rest.flatten) := Multiset.coe_add s rest.flatten

/-! ### The consumption loop -/

theorem foldl_sortStep_coe (m : Nat) (input : List α) :
    ∀ st : List (List α) × List α,
      (↑((input.foldl (sortStep m) st).1.flatten) : Multiset α) +
          ↑(input.foldl (sortStep m) st).2 =
        ↑st.1.flatten + ↑st.2 + ↑input := by
  induction input with
  | nil => intro st; simp
  | cons x rest ih =>
    intro st
    rw [List.foldl_cons, ih (sortStep m st x)]
    have hstep : (↑((sortStep m st x).1.flatten) : Multiset α) + ↑(sortStep m st x).2 =
        ↑st.1.flatten + ↑st.2 + ↑[x] := by
      simp only [sortStep]
      split_ifs with hlen
      · simp only [sortAndWriteSegment, List.flatten_append, List.flatten_cons,
          List.flatten_nil, List.append_nil]
        rw [← Multiset.coe_add, sortList_coe, ← Multiset.coe_add]
        simp [← Multiset.coe_add]
        abel
      · simp only
        rw [← Multiset.coe_add]
        abel
    calc (↑((sortStep m st x).1.flatten) : Multiset α) + ↑(sortStep m st x).2 + ↑rest
        = (↑st.1.flatten + ↑st.2 + ↑[x]) + ↑rest := by rw [hstep]
      _ = ↑st.1.flatten + ↑st.2 + (↑[x] + ↑rest) := by abel
      _ = ↑st.1.flatten + ↑st.2 + ↑(x :: rest) := by rw [Multiset.coe_add]; rfl

theorem foldl_sortStep_sorted (m : Nat) (input : List α) :
    ∀ st : List (List α) × List α,
      (∀ s ∈ st.1, List.Sorted (· ≤ ·) s) →
      ∀ s ∈ (input.foldl (sortStep m) st).1, List.Sorted (· ≤ ·) s := by
  induction input with
  | nil => intro st h; simpa using h
  | cons x rest ih =>
    intro st h
    rw [List.foldl_cons]
    apply ih
    simp only [sortStep]
    split_ifs
    · intro s hs
      simp only [sortAndWriteSegment] at hs
      rcases List.mem_append.mp hs with hs | hs
      · exact h s hs
      · have heq : s = sortList (st.2 ++ [x]) := by simpa using hs
        rw [heq]
        exact sortList_sorted _
    · exact h

theorem foldl_sortStep_buflen (m : Nat) (input : List α) :
    ∀ st : List (List α) × List α, st.2.length ≤ m →
      (input.foldl (sortStep m) st).2.length ≤ m := by
  induction input with
  | nil => intro st h; simpa using h
  | cons x rest ih =>
    intro st h
    rw [List.foldl_cons]
    apply ih
    simp only [sortStep]
    split_ifs with hlen
    · simp
    · simp at hlen ⊢
      omega

theorem foldl_sortStep_seglen (m : Nat) (input : List α) :
    ∀ st : List (List α) × List α,
      st.2.length ≤ m → (∀ s ∈ st.1, s.length = m + 1) →
      ∀ s ∈ (input.foldl (sortStep m) st).1, s.length = m + 1 := by
  induction input with
  | nil => intro st _ h; simpa using h
  | cons x rest ih =>
    intro st hb h
    rw [List.foldl_cons]
    simp only [sortStep]
    split_ifs with hlen
    · apply ih _ (by simp)
      intro s hs
      simp only [sortAndWriteSegment] at hs
      rcases List.mem_append.mp hs with hs | hs
      · exact h s hs
      · have heq : s = sortList (st.2 ++ [x]) := by simpa using hs
        rw [heq, sortList_length]
        simp at hlen ⊢
        omega
    · apply ih _ (by simp at hlen ⊢; omega)
      exact h

theorem foldl_sortStep_shape (m : Nat) (input : List α) :
    ∀ (segs : List (List α)) (buf : List α), buf.length ≤ m →
      (input.foldl (sortStep m) (segs, buf)).1.length =
          segs.length + (buf.length + input.length) / (m + 1) ∧
        (input.foldl (sortStep m) (segs, buf)).2.length =
          (buf.length + input.length) % (m + 1) := by
  induction input with
  | nil =>
    intro segs buf h
    have hlt : buf.length < m + 1 := by omega
    constructor
    · simp [Nat.div_eq_of_lt hlt]
    · simp [Nat.mod_eq_of_lt hlt]
  | cons x rest ih =>
    intro segs buf h
    rw [List.foldl_cons]
    simp only [sortStep]
    split_ifs with hlen
    · have hbm : buf.length = m := by
        simp at hlen
        omega
      obtain ⟨h1, h2⟩ := ih (sortAndWriteSegment segs (buf ++ [x])) [] (by simp)
      have e1 : buf.length + (x :: rest).length = rest.length + (m + 1) := by
        simp [hbm]
        omega
      constructor
      · rw [h1, e1, Nat.add_div_right _ (Nat.succ_pos m)]
        simp [sortAndWriteSegment]
        omega
      · rw [h2, e1, Nat.add_mod_right]
        simp
    · have hble : (buf ++ [x]).length ≤ m := by
        simp at hlen ⊢
        omega
      obtain ⟨h1, h2⟩ := ih segs (buf ++ [x]) hble
      have e1 : (buf ++ [x]).length + rest.length = buf.length + (x :: rest).length := by
        simp
        omega
      constructor
      · rw [h1, e1]
      · rw [h2, e1]

theorem foldl_sortStep_small (m : Nat) (input : List α) :
    ∀ (segs : List (List α)) (buf : List α), buf.length + input.length ≤ m →
      input.foldl (sortStep m) (segs, buf) = (segs, buf ++ input) := by
  induction input with
  | nil => intro segs buf h; simp
  | cons x rest ih =>
    intro segs buf h
    rw [List.foldl_cons]
    simp only [sortStep]
    split_ifs with hlen
    · exfalso
      simp at hlen h
      omega
    · rw [ih segs (buf ++ [x]) (by simp at h ⊢; omega)]
      simp

theorem runGen_coe (m : Nat) (input : List α) :
    (↑(runGen m input).1.flatten : Multiset α) + ↑(runGen m input).2 = ↑input := by
  have h := foldl_sortStep_coe m input ([], [])
  simpa [runGen] using h

theorem runGen_sorted (m : Nat) (input : List α) :
    ∀ s ∈ (runGen m input).1, List.Sorted (· ≤ ·) s :=
  foldl_sortStep_sorted m input ([], []) (by simp)

theorem runGen_buflen (m : Nat) (input : List α) : (runGen m input).2.length ≤ m :=
  foldl_sortStep_buflen m input ([], []) (by simp)

theorem runGen_seglen (m : Nat) (input : List α) :
    ∀ s ∈ (runGen m input).1, s.length = m + 1 :=
  foldl_sortStep_seglen m input ([], []) (by simp) (by simp)

theorem runGen_shape (m : Nat) (input : List α) :
    (runGen m input).1.length = input.length / (m + 1) ∧
      (runGen m input).2.length = input.length % (m + 1) := by
  have h := foldl_sortStep_shape m input [] [] (by simp)
  simpa [runGen] using h

theorem runGen_buf_empty_iff (m : Nat) (input : List α) :
    (runGen m input).2 = [] ↔ input.length % (m + 1) = 0 := by
  rw [← List.length_eq_zero, (runGen_shape m input).2]

theorem runGen_segs_empty_iff (m : Nat) (input : List α) :
    (runGen m input).1 = [] ↔ input.length < m + 1 := by
  rw [← List.length_eq_zero, (runGen_shape m input).1]
  exact Nat.div_eq_zero_iff (Nat.succ_pos m)

/-! ### The two outcomes of `sort` -/

theorem sort_eq_merge (m : Nat) (input : List α)
    (hb : (runGen m input).2 ≠ []) (hs : (runGen m input).1 ≠ []) :
    sort m input = SortedIterator.new none
      (sortAndWriteSegment (runGen m input).1 (runGen m input).2) := by
  unfold sort
  rw [if_pos]
  simp [List.isEmpty_eq_false, hb, hs]

theorem sort_eq_pass (m : Nat) (input : List α)
    (h : (runGen m input).2 = [] ∨ (runGen m input).1 = []) :
    sort m input = SortedIterator.new (some (sortList (runGen m input).2))
      (runGen m input).1 := by
  unfold sort
  rw [if_neg]
  rcases h with h | h <;> simp [h]

theorem sort_WF (m : Nat) (input : List α) : (sort m input).WF := by
  by_cases hb : (runGen m input).2 = []
  · rw [sort_eq_pass m input (Or.inl hb)]
    exact new_WF _ _
  · by_cases hs : (runGen m input).1 = []
    · rw [sort_eq_pass m input (Or.inr hs)]
      exact new_WF _ _
    · rw [sort_eq_merge m input hb hs]
      exact new_WF _ _

theorem sort_Inv (m : Nat) (input : List α) : (sort m input).Inv := by
  by_cases hcase : (runGen m input).2 ≠ [] ∧ (runGen m input).1 ≠ []
  · rw [sort_eq_merge m input hcase.1 hcase.2]
    apply new_Inv
    · intro q h
      simp at h
    · intro s hs
      simp only [sortAndWriteSegment] at hs
      rcases List.mem_append.mp hs with h | h
      · exact runGen_sorted m input s h
      · have heq : s = sortList (runGen m input).2 := by simpa using h
        rw [heq]
        exact sortList_sorted _
  · rw [sort_eq_pass m input (by tauto)]
    apply new_Inv
    · intro q h
      have heq : sortList (runGen m input).2 = q := by simpa using h
      rw [← heq]
      exact sortList_sorted _
    · exact runGen_sorted m input

theorem sort_live_of_not_lost (m : Nat) (input : List α)
    (h : (runGen m input).1 = [] ∨ (runGen m input).2 ≠ []) :
    (sort m input).live = (↑input : Multiset α) := by
  have hcoe := runGen_coe m input
  by_cases hs : (runGen m input).1 = []
  · rw [sort_eq_pass m input (Or.inr hs), new_live_pass, sortList_coe]
    rw [hs] at hcoe
    simpa using hcoe
  · have hb : (runGen m input).2 ≠ [] := by tauto
    rw [sort_eq_merge m input hb hs, new_live_merge]
    simp only [sortAndWriteSegment, List.flatten_append, List.flatten_cons,
      List.flatten_nil, List.append_nil]
    rw [← Multiset.coe_add, sortList_coe]
    exact hcoe

theorem sort_live_lost (m : Nat) (input : List α)
    (hb : (runGen m input).2 = []) (hs : (runGen m input).1 ≠ []) :
    (sort m input).live = 0 := by
  rw [sort_eq_pass m input (Or.inl hb), new_live_pass, hb]
  rfl

/-! ### End-to-end facts about `sort` followed by draining -/

theorem sort_drain_sorted (m : Nat) (input : List α) :
    List.Sorted (· ≤ ·) (sort m input).drain :=
  (drain_spec _ (sort_WF m input) (sort_Inv m input)).2

theorem sort_drain_coe (m : Nat) (input : List α)
    (h : (runGen m input).1 = [] ∨ (runGen m input).2 ≠ []) :
    (↑(sort m input).drain : Multiset α) = ↑input := by
  rw [(drain_spec _ (sort_WF m input) (sort_Inv m input)).1]
  exact sort_live_of_not_lost m input h

theorem sort_drain_lost (m : Nat) (input : List α)
    (hb : (runGen m input).2 = []) (hs : (runGen m input).1 ≠ []) :
    (sort m input).drain = [] := by
  have h := (drain_spec _ (sort_WF m input) (sort_Inv m input)).1
  rw [sort_live_lost m input hb hs] at h
  exact (Multiset.coe_eq_zero _).mp h

/-- Outside the data-loss case, the output is literally the stable sort of the
input: it is a sorted list with the input's multiset, and such a list is
unique. -/
theorem sort_drain_eq_sortList (m : Nat) (input : List α)
    (h : (runGen m input).1 = [] ∨ (runGen m input).2 ≠ []) :
    (sort m input).drain = sortList input := by
  apply List.eq_of_perm_of_sorted _ (sort_drain_sorted m input) (sortList_sorted input)
  apply Multiset.coe_eq_coe.mp
  rw [sort_drain_coe m input h, sortList_coe]

/-! ### Remaining helper lemmas -/

theorem sortList_eq_of_perm (l₁ l₂ : List α) (h : l₁.Perm l₂) :
    sortList l₁ = sortList l₂ :=
  List.eq_of_perm_of_sorted
    ((sortList_perm l₁).trans (h.trans (sortList_perm l₂).symm))
    (sortList_sorted _) (sortList_sorted _)

theorem next_preserves_exhausted (it : SortedIterator α) (i : Nat)
    (h : it.next_values[i]? = some none) :
    ((it.next).2).next_values[i]? = some none := by
  rcases hq : it.pass_through_queue with _ | q
  · rcases hscan : smallestScan it.next_values 0 none with _ | ⟨v, idx⟩
    · rw [next_merge_none it hq hscan]
      exact h
    · rw [next_merge_some it hq v idx hscan]
      obtain ⟨j, hj0, hget, _, _⟩ :=
        smallestScan_some_spec it.next_values 0 v idx hscan
      obtain rfl : idx = j := by omega
      have hne : idx ≠ i := by
        intro hcontra
        rw [hcontra] at hget
        rw [hget] at h
        simp at h
      show (it.next_values.set idx (it.segments.getD idx []).head?)[i]? = some none
      rw [List.getElem?_set_ne hne]
      exact h
  · cases q with
    | nil =>
      rw [next_pass_nil it hq]
      exact h
    | cons x rest =>
      rw [next_pass_cons it x rest hq]
      exact h

/-! ### Claim theorems -/

/-- C3: for every configuration and input, every pair of consecutive items
emitted by the iterator returned by `sort` satisfies `a ≤ b` — in pass-through
mode and in k-way merge mode alike. -/
theorem output_consecutive_pairs_sorted (m : Nat) (input : List α) :
    List.Chain' (· ≤ ·) (sort m input).drain :=
  List.chain'_iff_pairwise.mpr (sort_drain_sorted m input)

/-- C1 (failing evaluation): with `max_buffered = 1` and input `[1, 2]`, the
loop spills once and leaves an empty buffer, `sort` installs an empty
pass-through queue, and the iterator emits nothing — the multiset of emitted
items is not the multiset consumed. -/
theorem multiset_preservation_fails_on_exact_multiple :
    (sort 1 [1, 2] : SortedIterator Nat).drain = [] ∧
      (↑(sort 1 [1, 2] : SortedIterator Nat).drain : Multiset Nat) ≠
        (↑([1, 2] : List Nat) : Multiset Nat) := by
  constructor
  · rfl
  · decide

/-- C2 (failing evaluation): with `max_buffered = 1` and input `[1, 2]`, one
run file was spilled (`k = 1`) yet the pass-through queue is present (as
`some []`), and the spilled segment is shadowed rather than handed to the
merge. -/
theorem pass_through_present_despite_segments :
    (sort 1 [1, 2] : SortedIterator Nat).pass_through_queue = some [] ∧
      (sort 1 [1, 2] : SortedIterator Nat).segments.length = 1 := by
  constructor <;> rfl

/-- C4 (counterexample to the claimed formula): with `max_buffered = 2` and a
6-item input, `sort` produces 2 run files, but `ceil((N − 1) / max_buffered)`
evaluates to 3. -/
theorem spill_count_formula_counterexample :
    (sort 2 [0, 1, 2, 3, 4, 5] : SortedIterator Nat).segments.length = 2 ∧
      (([0, 1, 2, 3, 4, 5] : List Nat).length - 1 + (2 - 1)) / 2 = 3 ∧
      (2 : Nat) ≠ 3 := by
  refine ⟨rfl, rfl, by decide⟩

/-- C4 (amended): for every input of length `N > max_buffered`, `sort`
produces exactly `ceil(N / (max_buffered + 1))` run files, because a spill is
triggered by every `max_buffered + 1`-st item and a non-empty residue is
flushed as one extra run. -/
theorem spill_count_eq (m : Nat) (input : List α) (h : input.length > m) :
    (sort m input).segments.length = (input.length + m) / (m + 1) := by
  have hshape := runGen_shape m input
  by_cases hb : (runGen m input).2 = []
  · have hdvd : (m + 1) ∣ input.length :=
      Nat.dvd_of_mod_eq_zero ((runGen_buf_empty_iff m input).mp hb)
    obtain ⟨q, hq⟩ := hdvd
    rw [sort_eq_pass m input (Or.inl hb)]
    show ((runGen m input).1.map List.tail).length = _
    rw [List.length_map, hshape.1, hq, Nat.mul_div_cancel_left q (Nat.succ_pos m),
      Nat.mul_add_div (Nat.succ_pos m), Nat.div_eq_of_lt (Nat.lt_succ_self m)]
    omega
  · have hs : (runGen m input).1 ≠ [] := by
      rw [ne_eq, runGen_segs_empty_iff]
      omega
    rw [sort_eq_merge m input hb hs]
    show ((sortAndWriteSegment (runGen m input).1 (runGen m input).2).map
      List.tail).length = _
    rw [List.length_map]
    simp only [sortAndWriteSegment, List.length_append, List.length_singleton]
    rw [hshape.1]
    have hr : input.length % (m + 1) ≠ 0 := fun hc =>
      hb ((runGen_buf_empty_iff m input).mpr hc)
    have hrlt : input.length % (m + 1) < m + 1 := Nat.mod_lt _ (Nat.succ_pos m)
    have key : ∀ q r : Nat, input.length = (m + 1) * q + (r + 1) → r + 1 < m + 1 →
        input.length / (m + 1) + 1 = (input.length + m) / (m + 1) := by
      intro q r hN hr2
      rw [hN, Nat.mul_add_div (Nat.succ_pos m)]
      have e : (m + 1) * q + (r + 1) + m = (m + 1) * q + r + (m + 1) := by ring
      rw [e, Nat.add_div_right _ (Nat.succ_pos m), Nat.mul_add_div (Nat.succ_pos m),
        Nat.div_eq_of_lt hr2, Nat.div_eq_of_lt (by omega)]
    obtain ⟨r, hr1⟩ : ∃ r, input.length % (m + 1) = r + 1 :=
      ⟨input.length % (m + 1) - 1,
        (Nat.succ_pred_eq_of_pos (Nat.pos_of_ne_zero hr)).symm⟩
    exact key (input.length / (m + 1)) r
      (by rw [← hr1]; exact (Nat.div_add_mod input.length (m + 1)).symm)
      (hr1 ▸ hrlt)

theorem spill_count_eq_witness :
    ([0, 1, 2, 3, 4, 5, 6] : List Nat).length > 2 ∧
      (sort 2 [0, 1, 2, 3, 4, 5, 6] : SortedIterator Nat).segments.length =
        (([0, 1, 2, 3, 4, 5, 6] : List Nat).length + 2) / (2 + 1) :=
  ⟨by decide, spill_count_eq 2 [0, 1, 2, 3, 4, 5, 6] (by decide)⟩

/-- C5: at every point of the consumption loop (i.e. after any processed
prefix `p` of the input) the buffer holds at most `max_buffered` items before
an insert and at most `max_buffered + 1` immediately after one; a spill fires
exactly when an insert pushes the size past `max_buffered` and leaves the
buffer empty. -/
theorem buffer_bound_during_consumption (m : Nat) (input p rest : List α)
    (hpre : input = p ++ rest) :
    (runGen m p).2.length ≤ m ∧
      ∀ x : α,
        ((runGen m p).2 ++ [x]).length ≤ m + 1 ∧
          (((runGen m p).2 ++ [x]).length > m →
            (sortStep m (runGen m p) x).2 = []) ∧
          (((runGen m p).2 ++ [x]).length ≤ m →
            sortStep m (runGen m p) x = ((runGen m p).1, (runGen m p).2 ++ [x])) := by
  have hb := runGen_buflen m p
  refine ⟨hb, ?_⟩
  intro x
  refine ⟨by simp; omega, ?_, ?_⟩
  · intro hgt
    simp only [sortStep]
    rw [if_pos hgt]
  · intro hle
    simp only [sortStep]
    rw [if_neg (by omega)]

theorem buffer_bound_during_consumption_witness :
    ([3, 1, 2] : List Nat) = [3, 1] ++ [2] ∧
      ((runGen 1 [3, 1] : List (List Nat) × List Nat).2.length ≤ 1 ∧
        ∀ x : Nat,
          ((runGen 1 [3, 1]).2 ++ [x]).length ≤ 1 + 1 ∧
            (((runGen 1 [3, 1]).2 ++ [x]).length > 1 →
              (sortStep 1 (runGen 1 [3, 1]) x).2 = []) ∧
            (((runGen 1 [3, 1]).2 ++ [x]).length ≤ 1 →
              sortStep 1 (runGen 1 [3, 1]) x =
                ((runGen 1 [3, 1]).1, (runGen 1 [3, 1]).2 ++ [x]))) :=
  ⟨rfl, buffer_bound_during_consumption 1 [3, 1, 2] [3, 1] [2] rfl⟩

/-- C6: when the whole input fits in the buffer (`N ≤ max_buffered`), no run
file is created (segment count 0), the sorted buffer becomes the pass-through
queue, and the iterator drains exactly that sorted buffer. -/
theorem small_input_pass_through (m : Nat) (input : List α)
    (h : input.length ≤ m) :
    (sort m input).segments = [] ∧
      (sort m input).pass_through_queue = some (sortList input) ∧
      (sort m input).drain = sortList input := by
  have hrg : runGen m input = ([], input) := by
    have h2 := foldl_sortStep_small m input [] [] (by simpa using h)
    simpa [runGen] using h2
  have hs : (runGen m input).1 = [] := by rw [hrg]
  refine ⟨?_, ?_, ?_⟩
  · rw [sort_eq_pass m input (Or.inr hs), hrg]
    rfl
  · rw [sort_eq_pass m input (Or.inr hs), hrg]
    rfl
  · rw [sort_drain_eq_sortList m input (Or.inl hs)]

theorem small_input_pass_through_witness :
    ([5, 0, 4] : List Nat).length ≤ 10 ∧
      ((sort 10 [5, 0, 4] : SortedIterator Nat).segments = [] ∧
        (sort 10 [5, 0, 4] : SortedIterator Nat).pass_through_queue =
          some (sortList [5, 0, 4]) ∧
        (sort 10 [5, 0, 4] : SortedIterator Nat).drain = sortList [5, 0, 4]) :=
  ⟨by decide, small_input_pass_through 10 [5, 0, 4] (by decide)⟩

/-- C7: in merge mode, `next` returns end-of-stream exactly when every
lookahead head is exhausted; a successful `next` returns the minimum
non-exhausted head, taken at the lowest index among ties (every live head is
`≥` it and every live head at a smaller index is `>` it), and refills exactly
that slot with the next decode from the same run's reader. -/
theorem next_selects_minimum_head (it : SortedIterator α)
    (hq : it.pass_through_queue = none) :
    ((it.next).1 = none ↔ ∀ h ∈ it.next_values, h = none) ∧
      ∀ (v : α) (it' : SortedIterator α), it.next = (some v, it') →
        ∃ i : Nat, it.next_values[i]? = some (some v) ∧
          (∀ (j : Nat) (w : α), it.next_values[j]? = some (some w) → v ≤ w) ∧
          (∀ (j : Nat) (w : α), j < i → it.next_values[j]? = some (some w) → v < w) ∧
          it'.pass_through_queue = none ∧
          it'.next_values = it.next_values.set i (it.segments.getD i []).head? ∧
          it'.segments = it.segments.set i (it.segments.getD i []).tail := by
  constructor
  · constructor
    · intro h
      rcases hscan : smallestScan it.next_values 0 none with _ | ⟨v, i⟩
      · exact (smallestScan_eq_none_iff _ 0).mp hscan
      · rw [next_merge_some it hq v i hscan] at h
        simp at h
    · intro hall
      rw [next_merge_none it hq ((smallestScan_eq_none_iff _ 0).mpr hall)]
  · intro v it' h
    rcases hscan : smallestScan it.next_values 0 none with _ | ⟨v₀, i⟩
    · rw [next_merge_none it hq hscan] at h
      exact absurd (congrArg Prod.fst h) (by simp)
    · rw [next_merge_some it hq v₀ i hscan] at h
      have hv : v₀ = v := by simpa using congrArg Prod.fst h
      subst hv
      have hit : it' = { it with
          segments := it.segments.set i (it.segments.getD i []).tail
          next_values := it.next_values.set i (it.segments.getD i []).head? } :=
        (congrArg Prod.snd h).symm
      obtain ⟨j, hj0, hget, hmin, hstrict⟩ :=
        smallestScan_some_spec it.next_values 0 v₀ i hscan
      obtain rfl : i = j := by omega
      exact ⟨i, hget, hmin, hstrict, by rw [hit]; exact hq, by rw [hit],
        by rw [hit]⟩

theorem next_selects_minimum_head_witness :
    (SortedIterator.new none [[1], [0, 2]] : SortedIterator Nat).pass_through_queue =
        none ∧
      ((((SortedIterator.new none [[1], [0, 2]] : SortedIterator Nat).next).1 = none ↔
          ∀ h ∈ (SortedIterator.new none [[1], [0, 2]] :
            SortedIterator Nat).next_values, h = none) ∧
        ∀ (v : Nat) (it' : SortedIterator Nat),
          (SortedIterator.new none [[1], [0, 2]] : SortedIterator Nat).next =
            (some v, it') →
          ∃ i : Nat,
            (SortedIterator.new none [[1], [0, 2]] :
                SortedIterator Nat).next_values[i]? = some (some v) ∧
            (∀ (j : Nat) (w : Nat),
              (SortedIterator.new none [[1], [0, 2]] :
                  SortedIterator Nat).next_values[j]? = some (some w) → v ≤ w) ∧
            (∀ (j : Nat) (w : Nat), j < i →
              (SortedIterator.new none [[1], [0, 2]] :
                  SortedIterator Nat).next_values[j]? = some (some w) → v < w) ∧
            it'.pass_through_queue = none ∧
            it'.next_values =
              (SortedIterator.new none [[1], [0, 2]] :
                  SortedIterator Nat).next_values.set i
                (((SortedIterator.new none [[1], [0, 2]] :
                  SortedIterator Nat).segments.getD i []).head?) ∧
            it'.segments =
              (SortedIterator.new none [[1], [0, 2]] :
                  SortedIterator Nat).segments.set i
                (((SortedIterator.new none [[1], [0, 2]] :
                  SortedIterator Nat).segments.getD i []).tail)) :=
  ⟨rfl, next_selects_minimum_head (SortedIterator.new none [[1], [0, 2]]) rfl⟩

/-- C8: after construction the iterator never reports an error (`next` is a
total function into `Option`); once a run's lookahead slot is exhausted
(`none`, covering both end-of-stream and decode failure), it remains exhausted
after any number of further `next` calls, so that run contributes no further
items. -/
theorem exhausted_run_stays_exhausted (it : SortedIterator α) (i k : Nat)
    (h : it.next_values[i]? = some none) :
    (stepN k it).next_values[i]? = some none := by
  induction k generalizing it with
  | zero => simpa [stepN] using h
  | succ k ih =>
    show (stepN k (it.next).2).next_values[i]? = some none
    exact ih _ (next_preserves_exhausted it i h)

theorem exhausted_run_stays_exhausted_witness :
    (SortedIterator.new none [[], [1, 2]] : SortedIterator Nat).next_values[0]? =
        some none ∧
      (stepN 2 (SortedIterator.new none [[], [1, 2]] :
        SortedIterator Nat)).next_values[0]? = some none :=
  ⟨rfl, exhausted_run_stays_exhausted (SortedIterator.new none [[], [1, 2]]) 0 2 rfl⟩

/-- C9: for a fixed `max_buffered`, `sort` produces the same output sequence
on any two inputs that are permutations of each other (ascending, descending
or shuffled order of the same multiset). -/
theorem output_invariant_under_permutation (m : Nat) (input₁ input₂ : List α)
    (h : input₁.Perm input₂) :
    (sort m input₁).drain = (sort m input₂).drain := by
  have hlen : input₁.length = input₂.length := h.length_eq
  by_cases hb : (runGen m input₁).2 = []
  · by_cases hs : (runGen m input₁).1 = []
    · have hs₂ : (runGen m input₂).1 = [] := by
        rw [runGen_segs_empty_iff] at hs ⊢
        rw [← hlen]
        exact hs
      rw [sort_drain_eq_sortList m input₁ (Or.inl hs),
        sort_drain_eq_sortList m input₂ (Or.inl hs₂)]
      exact sortList_eq_of_perm input₁ input₂ h
    · have hb₂ : (runGen m input₂).2 = [] := by
        rw [runGen_buf_empty_iff] at hb ⊢
        rw [← hlen]
        exact hb
      have hs₂ : (runGen m input₂).1 ≠ [] := by
        intro hc
        apply hs
        rw [runGen_segs_empty_iff] at hc ⊢
        rw [hlen]
        exact hc
      rw [sort_drain_lost m input₁ hb hs, sort_drain_lost m input₂ hb₂ hs₂]
  · have hb₂ : (runGen m input₂).2 ≠ [] := by
      intro hc
      apply hb
      rw [runGen_buf_empty_iff] at hc ⊢
      rw [hlen]
      exact hc
    rw [sort_drain_eq_sortList m input₁ (Or.inr hb),
      sort_drain_eq_sortList m input₂ (Or.inr hb₂)]
    exact sortList_eq_of_perm input₁ input₂ h

theorem output_invariant_under_permutation_witness :
    ([2, 1] : List Nat).Perm [1, 2] ∧
      (sort 1 [2, 1] : SortedIterator Nat).drain = (sort 1 [1, 2]).drain :=
  ⟨by decide, output_invariant_under_permutation 1 [2, 1] [1, 2] (by decide)⟩

/-- C10: every run file spilled while consuming input (i.e. every segment the
loop itself pushes, excluding the residue flushed afterwards) holds exactly
`max_buffered + 1` items and is written in sorted order. -/
theorem spilled_runs_full_and_sorted (m : Nat) (input : List α) (s : List α)
    (h : s ∈ (runGen m input).1) :
    s.length = m + 1 ∧ List.Sorted (· ≤ ·) s :=
  ⟨runGen_seglen m input s h, runGen_sorted m input s h⟩

theorem spilled_runs_full_and_sorted_witness :
    ([1, 3] : List Nat) ∈ (runGen 1 [3, 1, 2] : List (List Nat) × List Nat).1 ∧
      (([1, 3] : List Nat).length = 1 + 1 ∧
        List.Sorted (· ≤ ·) ([1, 3] : List Nat)) :=
  ⟨by decide, spilled_runs_full_and_sorted 1 [3, 1, 2] [1, 3] (by decide)⟩

end Extsort
